import Mathlib

/-!
Verification of the FSP Study Tools voice/recognition services
(`src/python/openvoice_service.py`, `src/python/xtts_service.py`,
`src/python/vosk_service.py`) against their natural-language specification.

The Python source is shallowly embedded below: pure helpers become Lean
functions on `List Char` / `String`; audio segments are modelled by their
millisecond durations (pydub lengths are integer milliseconds) together
with the metadata the code inspects (peak amplitude, dBFS); stateful code
(profile store, training queue, recognition buffer) becomes explicit state
passing; code that can raise becomes `Except`/`Option`, with the points at
which external libraries can fail captured by explicit environment records.
-/

namespace FSP

/-! ### Text splitting and chunking

Embeds `TTSSynthesizer._split_into_sentences` / `_chunk_text`, which are
textually identical in `openvoice_service.py` (MAX_CHUNK_CHARS = 500) and
`xtts_service.py` (MAX_CHUNK_CHARS = 250); the chunk budget is therefore a
parameter `maxChars` here.

`_split_into_sentences` is
  `re.split(r'(?<=[.!?])\s+', text.strip())` followed by
  `[s.strip() for s in sentences if s.strip()]`.
-/

/-- Python `\s` for the characters relevant here (`str.strip` and the regex
both use whitespace): space, tab, newline, carriage return, vertical tab,
form feed. -/
def isWsC (c : Char) : Bool :=
  c == ' ' || c == '\t' || c == '\n' || c == '\r' || c == '\x0b' || c == '\x0c'

/-- The sentence-terminal characters of the regex class `[.!?]`. -/
def isPunctC (c : Char) : Bool :=
  c == '.' || c == '!' || c == '?'

/-- Python `str.strip()`: drop whitespace from both ends. -/
def stripChars (l : List Char) : List Char :=
  ((l.dropWhile isWsC).reverse.dropWhile isWsC).reverse

/-- The lookbehind test: the most recently consumed character (head of the
reversed current piece) is sentence-terminal punctuation. -/
def headPunct : List Char → Bool
  | p :: _ => isPunctC p
  | [] => false

/-- Scanner for `re.split(r'(?<=[.!?])\s+', ·)`.  `cur` is the current piece
in reverse; `inSep` records that we are inside a `\s+` separator run (which
the greedy regex consumes entirely).  A split happens at a whitespace
character whose predecessor (the head of `cur`) is sentence-terminal
punctuation; the emitted piece keeps the punctuation. -/
def splitGo : List Char → List Char → Bool → List (List Char)
  | [], cur, _ => [cur.reverse]
  | c :: rest, cur, inSep =>
    if inSep && isWsC c then
      splitGo rest cur true
    else if isWsC c && headPunct cur then
      cur.reverse :: splitGo rest [] true
    else
      splitGo rest (c :: cur) false

/-- Embeds `re.split(r'(?<=[.!?])\s+', text)` on character lists. -/
def splitRaw (cs : List Char) : List (List Char) :=
  splitGo cs [] false

/-- Embeds `_split_into_sentences` on character lists: strip the text, split on
sentence-terminal punctuation followed by whitespace, strip each piece and
drop the empty ones. -/
def splitSentencesL (cs : List Char) : List (List Char) :=
  ((splitRaw (stripChars cs)).map stripChars).filter (fun s => !s.isEmpty)

/-- Greedy sentence packer of `_chunk_text`: the running chunk `cur` takes
the next sentence unless that would push it past `maxChars` (in which case
`cur` is flushed); sentences are joined with a single space
(`f"{current_chunk} {sentence}".strip()`), and the final running chunk is
flushed at the end (`if current_chunk: chunks.append(current_chunk.strip())`). -/
def chunkGo (maxChars : Nat) : List (List Char) → List Char → List (List Char)
  | [], cur => if cur.isEmpty then [] else [stripChars cur]
  | s :: rest, cur =>
    if maxChars < cur.length + s.length + 1 ∧ ¬cur.isEmpty then
      stripChars cur :: chunkGo maxChars rest s
    else
      chunkGo maxChars rest (if cur.isEmpty then s else stripChars (cur ++ ' ' :: s))

/-- Embeds `_chunk_text` on character lists, including the `return chunks if chunks
else [text]` fallback that returns the raw text when no sentence survived. -/
def chunkTextL (maxChars : Nat) (cs : List Char) : List (List Char) :=
  let chunks := chunkGo maxChars (splitSentencesL cs) []
  if chunks.isEmpty then [cs] else chunks

/-- Embeds `_split_into_sentences` on strings. -/
def splitSentences (text : String) : List String :=
  (splitSentencesL text.toList).map (fun l => String.mk l)

/-- Embeds `_chunk_text` on strings. -/
def chunkText (maxChars : Nat) (text : String) : List String :=
  (chunkTextL maxChars text.toList).map (fun l => String.mk l)

/-- Sentences of a chunk list, joined with the single-space separator the
chunker itself uses. -/
def joinSp : List (List Char) → List Char
  | [] => []
  | [s] => s
  | s :: rest => s ++ ' ' :: joinSp rest

/-! ### Voice profiles and the profile store

Embeds the `VoiceModel` dataclass and `VoiceProfileStore` of
`openvoice_service.py` (the `VoiceProfile` / store of `xtts_service.py` is
the same shape with `speaker_wav` in place of `embedding_path`).  Progress
is a Python `int`, modelled as `Int`. -/

structure VoiceModel where
  id : String
  name : String
  state : String
  created_at : String
  audio_samples : List String
  embedding_path : Option String := none
  error : Option String := none
  progress : Int := 0
deriving DecidableEq, Repr

/-- One `update_profile(profile_id, **kwargs)` call: each field is `some v`
exactly when the corresponding keyword argument is passed (the service never
passes `None` as a value, so setting a field always stores a value). -/
structure ProfileUpdate where
  state : Option String := none
  embedding_path : Option String := none
  error : Option String := none
  progress : Option Int := none
  audio_samples : Option (List String) := none
deriving DecidableEq, Repr

/-- The `setattr` loop of `update_profile` applied to one profile. -/
def applyUpdate (p : VoiceModel) (u : ProfileUpdate) : VoiceModel :=
  { p with
    state := u.state.getD p.state
    embedding_path := (u.embedding_path.map some).getD p.embedding_path
    error := (u.error.map some).getD p.error
    progress := u.progress.getD p.progress
    audio_samples := u.audio_samples.getD p.audio_samples }

/-- Embeds `create_profile`: fresh record with `state='pending'`, `progress=0` and
no embedding or error. -/
def newProfile (id name created_at : String) (samples : List String) : VoiceModel :=
  { id := id, name := name, state := "pending", created_at := created_at
    audio_samples := samples, embedding_path := none, error := none, progress := 0 }

/-- The update issued by the `PUT /profiles/<id>/samples` endpoint
(`update_profile_samples`): replace the sample list and reset to
pending/progress 0 — note it touches neither `embedding_path` nor `error`. -/
def samplesUpdate (samples : List String) : ProfileUpdate :=
  { audio_samples := some samples, state := some "pending", progress := some 0 }

/-! ### The training job (`TrainingQueue._train_voice`)

The job body interacts with the outside world at a fixed set of points
(model initialization, audio preparation + loading the combined file,
speaker-embedding extraction with and without VAD, saving the embedding).
`TrainEnv` records the outcome at each point; `trainBody` replays the
control flow of `_train_voice` and returns, in order, the
`profile_store.update_profile` calls the run makes (try-branch updates,
plus the `state='failed'` update of the `except` branch when some step
raised).  Error strings built with f-string interpolation in the source are
abbreviated to their fixed prefix. -/

/-- What `_train_voice` observes about the combined audio file: pydub's
`audio_info.max` (peak amplitude) and `audio_info.dBFS` (only logged). -/
structure TrainAudioInfo where
  maxAmp : Nat
  dBFS : Int
deriving DecidableEq, Repr

/-- Outcome of `se_extractor.get_se(..., vad=True)`: Python distinguishes
`AssertionError` (caught, possibly retried) from any other exception
(propagated). -/
inductive VadOutcome where
  | ok
  | assertionError (msg : String)
  | otherError (msg : String)
deriving DecidableEq, Repr

structure TrainEnv where
  /-- Result of `model_cache.initialize()`. -/
  initOk : Bool
  /-- Value of `model_cache.init_error` (used when initialization fails). -/
  initError : Option String
  /-- combined result of `self._prepare_audio` and `AudioSegment.from_file`
  on the combined file: either an exception or the loaded audio info. -/
  prepared : Except String TrainAudioInfo
  /-- Outcome of `se_extractor.get_se(..., vad=True)`. -/
  extractVad : VadOutcome
  /-- Outcome of `se_extractor.get_se(..., vad=False)` (the retry). -/
  extractNoVad : Except String Unit
  /-- Outcome of `os.makedirs` and `torch.save` of the embedding. -/
  save : Except String Unit
deriving Repr

/-- The `state='failed'` update of the `except` branch. -/
def failedUpd (e : String) : ProfileUpdate :=
  { state := some "failed", error := some e, progress := some 0 }

/-- The final `state='ready'` update of a successful run. -/
def readyUpd (embeddingPath : String) : ProfileUpdate :=
  { state := some "ready", embedding_path := some embeddingPath, progress := some 100 }

/-- The path `config.profiles_dir / profile_id / 'speaker_embedding.pth'`. -/
def embPath (pid : String) : String :=
  "profiles/" ++ pid ++ "/speaker_embedding.pth"

/-- The `ValueError` message for silent/corrupt audio (interpolated suffix
elided). -/
def silentMsg : String :=
  "The audio file appears to be silent or corrupted."

/-- Embeds `"input audio is too short" in str(vad_error)` — the substring test that
decides whether the VAD failure is retried without VAD. -/
def containsShortMsg (msg : String) : Bool :=
  decide ("input audio is too short".toList <:+: msg.toList)

/-- Overall outcome of the extraction step, including the
retry-without-VAD fallback for the specific `AssertionError`. -/
def extractOutcome (env : TrainEnv) : Except String Unit :=
  match env.extractVad with
  | .ok => .ok ()
  | .assertionError m =>
    if containsShortMsg m then env.extractNoVad else .error m
  | .otherError m => .error m

/-- The sequence of `update_profile` calls one `_train_voice` run makes,
following the source's control flow: `state='extracting', progress=10`;
initialize models (raise on failure); `progress=30`; prepare + load +
validate the combined audio (silent ⇒ `ValueError`, quiet ⇒ log only);
`progress=50`; extract the embedding (with the VAD fallback);
`progress=80`; save; `state='ready'` with the embedding path and
`progress=100`.  Any raise lands in the `except` branch, which issues the
`state='failed'` update. -/
def trainBody (pid : String) (env : TrainEnv) : List ProfileUpdate :=
  let u1 : ProfileUpdate := { state := some "extracting", progress := some 10 }
  if env.initOk then
    let u2 : ProfileUpdate := { progress := some 30 }
    match env.prepared with
    | .error e => [u1, u2, failedUpd e]
    | .ok info =>
      if info.maxAmp = 0 then
        [u1, u2, failedUpd silentMsg]
      else
        let u3 : ProfileUpdate := { progress := some 50 }
        match extractOutcome env with
        | .error e => [u1, u2, u3, failedUpd e]
        | .ok _ =>
          let u4 : ProfileUpdate := { progress := some 80 }
          match env.save with
          | .error e => [u1, u2, u3, u4, failedUpd e]
          | .ok _ => [u1, u2, u3, u4, readyUpd (embPath pid)]
  else
    [u1, failedUpd (env.initError.getD "Failed to initialize models")]

/-! ### The single-flight job slot (`TrainingQueue`) -/

/-- Service state relevant to the training queue: the profile store
(association list keyed by profile id) and `TrainingQueue._current_task`. -/
structure SysState where
  profiles : List (String × VoiceModel)
  current_task : Option String
deriving Repr

/-- Embeds `update_profile` on the store: apply the update to the record with the
given id (if present). -/
def storeUpdate (ps : List (String × VoiceModel)) (pid : String) (u : ProfileUpdate) :
    List (String × VoiceModel) :=
  ps.map (fun kv => if kv.1 = pid then (kv.1, applyUpdate kv.2 u) else kv)

/-- Embeds `TrainingQueue.start_training`: under the lock, reject with the busy
message if `_current_task` is set, otherwise claim the slot (the job itself
then runs on a background thread). -/
def startTraining (pid : String) (s : SysState) : Bool × String × SysState :=
  match s.current_task with
  | some _ => (false, "Another training task is in progress", s)
  | none => (true, "Training started", { s with current_task := some pid })

/-- Observable events of a background run: each `update_profile` call, and
the release of the job slot. -/
inductive JobEvent where
  | update (u : ProfileUpdate)
  | release
deriving DecidableEq, Repr

def JobEvent.isRelease : JobEvent → Bool
  | .release => true
  | .update _ => false

/-- The event trace of one `_train_voice` run: the body's updates, then the
single `finally` block that clears `_current_task`. -/
def trainVoiceEvents (pid : String) (env : TrainEnv) : List JobEvent :=
  (trainBody pid env).map JobEvent.update ++ [JobEvent.release]

def applyEvent (pid : String) (s : SysState) : JobEvent → SysState
  | .update u => { s with profiles := storeUpdate s.profiles pid u }
  | .release => { s with current_task := none }

def applyEvents (pid : String) (s : SysState) (evs : List JobEvent) : SysState :=
  evs.foldl (applyEvent pid) s

/-! ### Reachable profile records (for the Ready/Failed field invariants)

The store mutates one record at a time, through `create_profile`, the
sample-replacement endpoint, the updates a `_train_voice` run issues, and
`delete_profile` (which removes the record).  `JobUpdate u` says `u` is an
update some run can issue; `PReachable` closes a record under all of these,
covering every interleaving of runs and endpoint calls. -/

def JobUpdate (u : ProfileUpdate) : Prop :=
  ∃ pid env, u ∈ trainBody pid env

inductive PReachable : VoiceModel → Prop
  | create (id name ts : String) (samples : List String) :
      PReachable (newProfile id name ts samples)
  | samples {p} (ss : List String) : PReachable p → PReachable (applyUpdate p (samplesUpdate ss))
  | job {p u} : PReachable p → JobUpdate u → PReachable (applyUpdate p u)

/-! ### Vosk streaming recognition (`vosk_service.py`) -/

/-- One entry of `latest_results`: `{'type': ..., 'text': ..., 'words': ...}`. -/
structure RecEntry where
  type : String
  text : String
  words : List String
deriving DecidableEq, Repr

/-- One recognizer outcome inside the consumer loop: `AcceptWaveform` true
gives `Result()` (a final), false gives `PartialResult()` (an in-progress
result, constructor `part` here). -/
inductive RecResult where
  | final (text : String) (words : List String)
  | part (text : String) (words : List String)
deriving DecidableEq, Repr

/-- How `recognition_worker` folds one recognizer outcome into
`latest_results`: a final with non-empty text is appended; a partial with
non-empty text replaces the last entry if that entry is a partial and is
appended otherwise; empty texts are dropped. -/
def processResult (buf : List RecEntry) : RecResult → List RecEntry
  | .final t w =>
    if t ≠ "" then buf ++ [⟨"final", t, w⟩] else buf
  | .part t w =>
    if t ≠ "" then
      match buf.getLast? with
      | some e =>
        if e.type = "partial" then buf.dropLast ++ [⟨"partial", t, w⟩]
        else buf ++ [⟨"partial", t, w⟩]
      | none => buf ++ [⟨"partial", t, w⟩]
    else buf

/-- Embeds `get_results` (`GET /results`): returns a copy of the whole buffer, and
the buffer is replaced by
`[r for r in latest_results if r.get('type') == 'partial'][-1:] if latest_results else []` —
the most recent partial-typed entry, kept regardless of its position and of
whether recognition is running. -/
def getResults (buf : List RecEntry) : List RecEntry × List RecEntry :=
  (buf,
    if buf.isEmpty then []
    else
      match (buf.filter (fun r => r.type == "partial")).getLast? with
      | some e => [e]
      | none => [])

/-! ### Audio validation (`_validate_single_audio`, openvoice variant)

The xtts variant is the same flow without the VAD speech-duration step.
Durations are seconds as rationals; dBFS is an integer (only its comparison
with `-50` matters).  Error strings are abbreviated to their kind. -/

inductive ValError where
  | fileNotFound
  | emptyFile
  | silentCorrupt
  | tooShort
  | notEnoughSpeech
  | analysisFailed (msg : String)
deriving DecidableEq, Repr

/-- What pydub reports about a loadable file. -/
structure AudioFileInfo where
  duration : ℚ
  maxAmp : Nat
  dBFS : Int
deriving DecidableEq, Repr

/-- The environment of one `_validate_single_audio` call: file existence and
size, the `AudioSegment.from_file` outcome, and the `_analyze_speech_duration`
(VAD) outcome. -/
structure AudioProbe where
  fileExists : Bool
  fileSize : Nat
  load : Except String AudioFileInfo
  vad : Except String ℚ
deriving Repr

structure ValidationResult where
  valid : Bool
  duration : ℚ
  speech_duration : ℚ
  is_quiet : Bool
  error : Option ValError
deriving DecidableEq, Repr

/-- Embeds `_validate_single_audio`, in source order: missing file; empty file;
load failure; `audio.max == 0` ⇒ silent/corrupt (duration already recorded);
`dBFS < -50` ⇒ quiet flag only; `duration_seconds < 3` ⇒ too short; VAD
speech duration `< 3` ⇒ not enough speech, and VAD failure falls back to
`0.7 * duration` without failing. -/
def validateSingle (p : AudioProbe) : ValidationResult :=
  if ¬p.fileExists then
    ⟨false, 0, 0, false, some .fileNotFound⟩
  else if p.fileSize = 0 then
    ⟨false, 0, 0, false, some .emptyFile⟩
  else
    match p.load with
    | .error e => ⟨false, 0, 0, false, some (.analysisFailed e)⟩
    | .ok a =>
      if a.maxAmp = 0 then
        ⟨false, a.duration, 0, false, some .silentCorrupt⟩
      else
        let quiet := a.dBFS < -50
        if a.duration < 3 then
          ⟨false, a.duration, 0, quiet, some .tooShort⟩
        else
          match p.vad with
          | .ok sd =>
            if sd < 3 then
              ⟨false, a.duration, sd, quiet, some .notEnoughSpeech⟩
            else
              ⟨true, a.duration, sd, quiet, none⟩
          | .error _ =>
            ⟨true, a.duration, a.duration * (7 / 10), quiet, none⟩

/-! ### Combining audio samples (`TrainingQueue._prepare_audio`)

Clips are modelled by their millisecond duration.  `loads` lists, per input
path in order, the result of `AudioSegment.from_file` (`none` = the load
raised).  With a single path the exception propagates; with several, each
failure is logged and skipped, a 500 ms silence is inserted before every
successfully loaded clip other than the first *input index*, and the
combination is exported unconditionally — even when it is empty. -/

def combineGo (gap : Nat) : Nat → List (Option Nat) → Nat
  | _, [] => 0
  | i, none :: rest => combineGo gap (i + 1) rest
  | i, some d :: rest => (if 0 < i then gap else 0) + d + combineGo gap (i + 1) rest

/-- Embeds `_prepare_audio`: duration (ms) of the exported combined clip, or the
propagated exception in the single-sample case. -/
def prepareAudio (loads : List (Option Nat)) (gap : Nat) : Except String Nat :=
  match loads with
  | [some d] => .ok d
  | [none] => .error "failed to load audio sample"
  | _ => .ok (combineGo gap 0 loads)

/-! ### Zero-shot reference preparation (`ProfileProcessor._prepare_reference_audio`)

Same combination step with a 300 ms gap (and no per-clip resampling before
concatenation), then mono reduction, resampling to 22050 Hz and gain
normalization to −20 dBFS — all duration-preserving — and finally
`audio[:30000]` when the clip exceeds 30 000 ms. -/

def prepareReferenceAudio (loads : List (Option Nat)) : Except String Nat :=
  match loads with
  | [some d] => .ok (min d 30000)
  | [none] => .error "failed to load audio sample"
  | _ =>
    let combined := combineGo 300 0 loads
    .ok (min combined 30000)

/-! ### Chunked long-text synthesis (`TTSSynthesizer.synthesize_long`)

Audio content is a `List α`; `synthOne` is `self.synthesize` (returning the
produced audio, or `none` when synthesis failed); `sil` is the fixed
inter-chunk silence (200 ms in openvoice, 150 ms in xtts).  One chunk
delegates to `synthesize` on the full text; several chunks are synthesized
independently, failures skipped with a warning, every successful chunk's
audio followed by the silence, and the run raises (returns `none`) only
when no chunk succeeded.  The reported `chunks` count is the number of
chunks attempted. -/

structure LongResult (α : Type) where
  audio : List α
  chunks : Nat
deriving Repr

def synthesizeLong {α : Type} (maxChars : Nat) (synthOne : String → Option (List α))
    (sil : List α) (text : String) : Option (LongResult α) :=
  let chunks := chunkText maxChars text
  if chunks.length = 1 then
    (synthOne text).map (fun a => ⟨a, 1⟩)
  else
    let segs := (chunks.filterMap synthOne).map (fun a => a ++ sil)
    if segs.isEmpty then none
    else some ⟨segs.flatten, chunks.length⟩

/-! ### Concrete environments and fixtures used by witnesses and
counterexamples -/

/-- A run in which every external step succeeds. -/
def envOk : TrainEnv :=
  { initOk := true, initError := none, prepared := .ok ⟨12345, -21⟩
    extractVad := .ok, extractNoVad := .ok (), save := .ok () }

/-- A run in which audio preparation raises. -/
def envFail : TrainEnv :=
  { initOk := true, initError := none, prepared := .error "boom"
    extractVad := .ok, extractNoVad := .ok (), save := .ok () }

/-- The progress values a run writes, in order. -/
def runProgress (pid : String) (env : TrainEnv) : List Int :=
  (trainBody pid env).filterMap ProfileUpdate.progress

/-- The two state/field implications that do hold invariantly. -/
def ProfileInv (p : VoiceModel) : Prop :=
  (p.state = "ready" → p.embedding_path.isSome) ∧
  (p.state = "failed" → p.error.isSome)

/-- Shape classification of every update a `_train_voice` run can issue. -/
def UpdOk (u : ProfileUpdate) : Prop :=
  (u.state = none ∧ u.embedding_path = none ∧ u.error = none) ∨
  (u.state = some "extracting" ∧ u.embedding_path = none ∧ u.error = none) ∨
  (∃ e, u.state = some "failed" ∧ u.error = some e) ∨
  (∃ pth, u.state = some "ready" ∧ u.embedding_path = some pth)

/-- A profile as left by a previous successful run (progress 100). -/
def profile100 : VoiceModel :=
  { newProfile "voice-1" "Alice" "t0" ["a.wav"] with
    state := "ready", embedding_path := some (embPath "voice-1"), progress := 100 }

/-- The profile record after a failed run followed by a successful run —
exactly the update sequences `_train_voice` issues. -/
def profileStale : VoiceModel :=
  List.foldl applyUpdate
    (List.foldl applyUpdate (newProfile "voice-1" "Alice" "t0" ["a.wav"])
      (trainBody "voice-1" envFail))
    (trainBody "voice-1" envOk)

/-- A reachable recognition buffer: an in-progress partial followed by a
final (see the C4 analysis — a final appends and never removes the
preceding partial). -/
def cexBuf : List RecEntry :=
  [⟨"partial", "hel", []⟩, ⟨"final", "hello", []⟩]

/-- Total duration of the successfully loaded samples. -/
def loadedSum (loads : List (Option Nat)) : Nat :=
  (loads.filterMap id).sum

/-- Number of successfully loaded samples. -/
def loadedCount (loads : List (Option Nat)) : Nat :=
  (loads.filterMap id).length

/-- A chunk synthesizer for witnesses: succeeds on the first chunk of the
witness text only. -/
def wSynthOne : String → Option (List Nat) :=
  fun c => if c = "Aa bb cc." then some [1, 2] else none

/-! ### Sentence well-formedness (specification side, for the chunking
claims)

`noMatch` says a character list contains no occurrence of the split
pattern (sentence punctuation immediately followed by whitespace);
`SentOk` characterizes the pieces `_split_into_sentences` can produce;
`sentsOk` additionally requires every non-final sentence to end in
sentence punctuation, which is what re-splitting a space-join relies on. -/

def noMatch : List Char → Bool
  | [] => true
  | [_] => true
  | c :: d :: rest => !(isPunctC c && isWsC d) && noMatch (d :: rest)

/-- The list ends with sentence-terminal punctuation. -/
def endsPunctB (s : List Char) : Bool :=
  match s.getLast? with
  | some c => isPunctC c
  | none => false

/-- A well-formed sentence: non-empty, already stripped, and containing no
internal split point. -/
def SentOk (s : List Char) : Prop :=
  s ≠ [] ∧ stripChars s = s ∧ noMatch s = true

/-- A well-formed sentence sequence: each sentence `SentOk`, and every
non-final sentence punctuation-terminated. -/
def sentsOk : List (List Char) → Prop
  | [] => True
  | s :: rest => SentOk s ∧ (rest = [] ∨ endsPunctB s = true) ∧ sentsOk rest

/-- Invariant of the raw split pieces: no internal split point, and every
non-final piece punctuation-terminated. -/
def piecesOk : List (List Char) → Prop
  | [] => True
  | p :: rest => noMatch p = true ∧ (rest = [] ∨ endsPunctB p = true) ∧ piecesOk rest

/-- Neither end of the list is whitespace (so `strip` is the identity). -/
def noWsEdge (l : List Char) : Prop :=
  (∀ c ∈ l.head?, isWsC c = false) ∧ (∀ c ∈ l.getLast?, isWsC c = false)

end FSP

namespace FSP

/-! ## Theorems -/

/-! ### C1 — single-flight job slot -/

theorem countP_update_map (l : List ProfileUpdate) :
    (l.map JobEvent.update).countP JobEvent.isRelease = 0 := by
  induction l with
  | nil => rfl
  | cons u t ih => simp [List.countP_cons, JobEvent.isRelease, ih]

/-- C1: while the single active-job slot is occupied, `start_training`
returns the busy rejection and leaves the whole service state — the slot
holder and every profile record — unchanged; and every `_train_voice` run,
whatever its exit path, releases the slot exactly once (one `release`
event, issued by the `finally` block), leaving `_current_task = None`. -/
theorem start_training_single_flight :
    (∀ (s : SysState) (pid task : String), s.current_task = some task →
        startTraining pid s = (false, "Another training task is in progress", s)) ∧
    (∀ (pid : String) (env : TrainEnv) (s : SysState),
        (trainVoiceEvents pid env).countP JobEvent.isRelease = 1 ∧
        (applyEvents pid s (trainVoiceEvents pid env)).current_task = none) := by
  constructor
  · intro s pid task h
    simp [startTraining, h]
  · intro pid env s
    constructor
    · simp [trainVoiceEvents, List.countP_append, countP_update_map,
        List.countP_cons, JobEvent.isRelease]
    · simp [trainVoiceEvents, applyEvents, List.foldl_append, applyEvent]

/-- Witness for C1 at concrete inputs: a busy rejection with the slot held
by `"p1"`, and the release count / cleared slot for a fully successful run. -/
theorem start_training_single_flight_witness :
    startTraining "p2" { profiles := [], current_task := some "p1" } =
      (false, "Another training task is in progress",
        { profiles := [], current_task := some "p1" }) ∧
    (trainVoiceEvents "p1" envOk).countP JobEvent.isRelease = 1 ∧
    (applyEvents "p1" { profiles := [], current_task := some "p1" }
        (trainVoiceEvents "p1" envOk)).current_task = none :=
  ⟨start_training_single_flight.1 _ "p2" "p1" rfl,
   start_training_single_flight.2 "p1" envOk _⟩

/-! ### C7 — progress behaviour of a run -/

/-- The possible progress sequences of a `_train_voice` run, by exhausting
the run's exit paths. -/
theorem runProgress_cases (pid : String) (env : TrainEnv) :
    runProgress pid env = [10, 30, 50, 80, 100] ∨
    runProgress pid env = [10, 0] ∨
    runProgress pid env = [10, 30, 0] ∨
    runProgress pid env = [10, 30, 50, 0] ∨
    runProgress pid env = [10, 30, 50, 80, 0] := by
  unfold runProgress trainBody extractOutcome
  split
  · split
    · right; right; left; rfl
    · split
      · right; right; left; rfl
      · split
        · right; right; right; left; rfl
        · split
          · right; right; right; right; rfl
          · left; rfl
  · right; left; rfl

/-- C7 counterexample: progress is *not* reset to 0 at the start of a job.
Starting from a profile whose previous run ended at progress 100, the value
0 never occurs anywhere along a successful run — the first update of the
run sets progress to 10. -/
theorem progress_never_zero_in_successful_run :
    (0 : Int) ∉
      (List.scanl applyUpdate profile100 (trainBody "voice-1" envOk)).map
        VoiceModel.progress := by decide

/-- C7 amended: the first progress update of every run writes 10 (not a
reset to 0); all progress values lie in [0, 100]; the sequence is
non-decreasing up to (but excluding) the terminal update; and the terminal
update writes 100 (success, `state='ready'`) or 0 (failure,
`state='failed'`). -/
theorem progress_run_bounds (pid : String) (env : TrainEnv) :
    (runProgress pid env).head? = some 10 ∧
    (∀ x ∈ runProgress pid env, 0 ≤ x ∧ x ≤ 100) ∧
    List.Chain' (· ≤ ·) (runProgress pid env).dropLast ∧
    ((runProgress pid env).getLast? = some 100 ∨
      (runProgress pid env).getLast? = some 0) := by
  rcases runProgress_cases pid env with h | h | h | h | h <;> rw [h] <;>
    exact ⟨rfl, by decide, by norm_num [List.chain'_cons], by decide⟩

/-- Witness for C7's amended statement on a concrete successful run. -/
theorem progress_run_bounds_witness :
    (runProgress "voice-1" envOk).head? = some 10 ∧
    (10 ∈ runProgress "voice-1" envOk → 0 ≤ (10 : Int) ∧ (10 : Int) ≤ 100) ∧
    List.Chain' (· ≤ ·) (runProgress "voice-1" envOk).dropLast :=
  ⟨(progress_run_bounds "voice-1" envOk).1,
   (progress_run_bounds "voice-1" envOk).2.1 10,
   (progress_run_bounds "voice-1" envOk).2.2.1⟩

end FSP

namespace FSP

/-! ### C2 — Ready/Failed field invariants -/

/-- Every update a `_train_voice` run can issue falls into one of the four
shapes of `UpdOk`. -/
theorem trainBody_updOk {pid : String} {env : TrainEnv} {u : ProfileUpdate}
    (hmem : u ∈ trainBody pid env) : UpdOk u := by
  unfold trainBody at hmem
  split at hmem
  · split at hmem
    · simp at hmem
      rcases hmem with h | h | h <;> subst h
      · exact Or.inr (Or.inl ⟨rfl, rfl, rfl⟩)
      · exact Or.inl ⟨rfl, rfl, rfl⟩
      · exact Or.inr (Or.inr (Or.inl ⟨_, rfl, rfl⟩))
    · split at hmem
      · simp at hmem
        rcases hmem with h | h | h <;> subst h
        · exact Or.inr (Or.inl ⟨rfl, rfl, rfl⟩)
        · exact Or.inl ⟨rfl, rfl, rfl⟩
        · exact Or.inr (Or.inr (Or.inl ⟨_, rfl, rfl⟩))
      · split at hmem
        · simp at hmem
          rcases hmem with h | h | h | h <;> subst h
          · exact Or.inr (Or.inl ⟨rfl, rfl, rfl⟩)
          · exact Or.inl ⟨rfl, rfl, rfl⟩
          · exact Or.inl ⟨rfl, rfl, rfl⟩
          · exact Or.inr (Or.inr (Or.inl ⟨_, rfl, rfl⟩))
        · split at hmem
          · simp at hmem
            rcases hmem with h | h | h | h | h <;> subst h
            · exact Or.inr (Or.inl ⟨rfl, rfl, rfl⟩)
            · exact Or.inl ⟨rfl, rfl, rfl⟩
            · exact Or.inl ⟨rfl, rfl, rfl⟩
            · exact Or.inl ⟨rfl, rfl, rfl⟩
            · exact Or.inr (Or.inr (Or.inl ⟨_, rfl, rfl⟩))
          · simp at hmem
            rcases hmem with h | h | h | h | h <;> subst h
            · exact Or.inr (Or.inl ⟨rfl, rfl, rfl⟩)
            · exact Or.inl ⟨rfl, rfl, rfl⟩
            · exact Or.inl ⟨rfl, rfl, rfl⟩
            · exact Or.inl ⟨rfl, rfl, rfl⟩
            · exact Or.inr (Or.inr (Or.inr ⟨_, rfl, rfl⟩))
  · simp at hmem
    rcases hmem with h | h <;> subst h
    · exact Or.inr (Or.inl ⟨rfl, rfl, rfl⟩)
    · exact Or.inr (Or.inr (Or.inl ⟨_, rfl, rfl⟩))

/-- Updates satisfying `UpdOk` preserve the two field implications. -/
theorem updOk_preserves {p : VoiceModel} {u : ProfileUpdate}
    (hp : ProfileInv p) (hu : UpdOk u) : ProfileInv (applyUpdate p u) := by
  obtain ⟨hr, hf⟩ := hp
  rcases hu with ⟨h1, h2, h3⟩ | ⟨h1, h2, h3⟩ | ⟨e, h1, h2⟩ | ⟨pth, h1, h2⟩
  · constructor
    · intro hs
      simp [applyUpdate, h1, h2] at hs ⊢
      exact hr hs
    · intro hs
      simp [applyUpdate, h1, h3] at hs ⊢
      exact hf hs
  · constructor
    · intro hs
      simp [applyUpdate, h1] at hs
    · intro hs
      simp [applyUpdate, h1] at hs
  · constructor
    · intro hs
      simp [applyUpdate, h1] at hs
    · intro _
      simp [applyUpdate, h2]
  · constructor
    · intro _
      simp [applyUpdate, h2]
    · intro hs
      simp [applyUpdate, h1] at hs

/-- C2 corrected — counterexample to the claim as stated.
Run the `_train_voice` update sequences of a failed run and then of a
successful run against a fresh profile: the result is `state = 'ready'`
with the stale error string still present, so `state = Failed ↔ error set`
is false (and `embedding_path` is likewise retained through the
`state='pending'` sample-replacement update, breaking the other converse). -/
theorem ready_profile_retains_stale_error :
    profileStale.state = "ready" ∧ profileStale.error = some "boom" ∧
    ¬(profileStale.state = "failed" ↔ profileStale.error.isSome) ∧
    (applyUpdate profileStale (samplesUpdate ["b.wav"])).state = "pending" ∧
    ¬((applyUpdate profileStale (samplesUpdate ["b.wav"])).state = "ready" ↔
        (applyUpdate profileStale (samplesUpdate ["b.wav"])).embedding_path.isSome) := by
  decide

/-- C2 amended: at every reachable point, `state = Ready` *implies* the
artifact path is set and `state = Failed` *implies* the error string is set
— but not conversely: stale `error` / `embedding_path` values survive later
transitions (see `ready_profile_retains_stale_error`). -/
theorem profile_state_field_implications (p : VoiceModel) (h : PReachable p) :
    (p.state = "ready" → p.embedding_path.isSome) ∧
    (p.state = "failed" → p.error.isSome) := by
  induction h with
  | create id name ts samples =>
    constructor <;> intro hs <;> simp [newProfile] at hs
  | samples ss _ ih =>
    constructor <;> intro hs <;> simp [applyUpdate, samplesUpdate] at hs
  | job _ hu ih =>
    obtain ⟨pid, env, hmem⟩ := hu
    exact updOk_preserves ih (trainBody_updOk hmem)

/-- Witness for C2's amended statement: a freshly created profile is
reachable and satisfies both implications. -/
theorem profile_state_field_implications_witness :
    ((newProfile "v1" "Alice" "t0" ["a.wav"]).state = "ready" →
      (newProfile "v1" "Alice" "t0" ["a.wav"]).embedding_path.isSome) ∧
    ((newProfile "v1" "Alice" "t0" ["a.wav"]).state = "failed" →
      (newProfile "v1" "Alice" "t0" ["a.wav"]).error.isSome) :=
  profile_state_field_implications _ (PReachable.create "v1" "Alice" "t0" ["a.wav"])

end FSP

namespace FSP

/-! ### C4 — partial/final coalescing in the consumer -/

/-- C4 counterexample: after `start` (empty buffer), processing
partial → partial → final leaves *two* entries in the buffer — the second
partial followed by the final — not one: the final is appended and never
removes the preceding partial. -/
theorem partial_partial_final_leaves_two_entries :
    (List.foldl processResult []
        [RecResult.part "hel" [], RecResult.part "hello" [],
         RecResult.final "hello world" ["hello", "world"]]).length ≠ 1 := by
  decide

/-- C4 amended: a non-empty partial replaces the buffer's last entry when
that entry is itself partial and is appended otherwise; a non-empty final
is always appended; consequently partial → partial → final from an empty
buffer leaves exactly *two* entries: the surviving second partial, then the
final. -/
theorem recognition_buffer_coalescing :
    (∀ (buf : List RecEntry) (t : String) (w : List String), t ≠ "" →
        processResult buf (.final t w) = buf ++ [⟨"final", t, w⟩]) ∧
    (∀ (buf : List RecEntry) (t : String) (w : List String), t ≠ "" →
        processResult buf (.part t w) =
          match buf.getLast? with
          | some e =>
            if e.type = "partial" then buf.dropLast ++ [⟨"partial", t, w⟩]
            else buf ++ [⟨"partial", t, w⟩]
          | none => [⟨"partial", t, w⟩]) ∧
    (∀ (t1 t2 t3 : String) (w1 w2 w3 : List String), t1 ≠ "" → t2 ≠ "" → t3 ≠ "" →
        List.foldl processResult []
            [RecResult.part t1 w1, RecResult.part t2 w2, RecResult.final t3 w3] =
          [⟨"partial", t2, w2⟩, ⟨"final", t3, w3⟩]) := by
  refine ⟨?_, ?_, ?_⟩
  · intro buf t w ht
    simp [processResult, ht]
  · intro buf t w ht
    cases hb : buf.getLast? with
    | none =>
      have hnil : buf = [] := List.getLast?_eq_none_iff.mp hb
      subst hnil
      simp [processResult, ht]
    | some e =>
      simp only [processResult, if_pos ht, hb]
  · intro t1 t2 t3 w1 w2 w3 h1 h2 h3
    simp [processResult, h1, h2, h3, List.getLast?_concat]

/-- Witness for C4's amended statement at concrete texts. -/
theorem recognition_buffer_coalescing_witness :
    processResult [] (.final "done" []) = [⟨"final", "done", []⟩] ∧
    List.foldl processResult []
        [RecResult.part "a" [], RecResult.part "ab" [], RecResult.final "ab c" []] =
      [⟨"partial", "ab", []⟩, ⟨"final", "ab c", []⟩] :=
  ⟨recognition_buffer_coalescing.1 [] "done" [] (by decide),
   recognition_buffer_coalescing.2.2 "a" "ab" "ab c" [] [] []
     (by decide) (by decide) (by decide)⟩

/-! ### C9 — `get_results` read-and-retain behaviour -/

/-- C9 counterexample: with the (reachable — see C4) buffer
`[partial, final]`, whose *trailing* entry is a final, the claim says the
read must clear the buffer; the code instead returns everything but retains
the already-superseded partial entry — and it does so without consulting
the Listening state at all. -/
theorem read_results_retains_non_trailing_partial :
    (getResults cexBuf).1 = cexBuf ∧
    cexBuf.getLast?.map RecEntry.type = some "final" ∧
    (getResults cexBuf).2 = [⟨"partial", "hel", []⟩] ∧
    (getResults cexBuf).2 ≠ [] := by
  decide

/-- C9 amended: every `get_results` call returns the entire buffer; the
retained residue is the most recent partial-*typed* entry anywhere in the
buffer when one exists (regardless of whether it is trailing and regardless
of the session state), and the buffer is cleared only when it holds no
partial entry.  In particular a trailing partial is returned *and*
retained. -/
theorem read_results_spec (buf : List RecEntry) :
    (getResults buf).1 = buf ∧
    (getResults buf).2 = ((buf.filter (fun r => r.type == "partial")).getLast?).toList ∧
    (∀ e, buf.getLast? = some e → e.type = "partial" → (getResults buf).2 = [e]) := by
  have hmain : (getResults buf).2 =
      ((buf.filter (fun r => r.type == "partial")).getLast?).toList := by
    unfold getResults
    cases buf with
    | nil => rfl
    | cons a l =>
      cases h : ((a :: l).filter (fun r => r.type == "partial")).getLast? <;> simp [h]
  refine ⟨rfl, hmain, ?_⟩
  intro e he hp
  rw [hmain]
  conv_lhs => rw [← List.dropLast_append_getLast? e he]
  rw [List.filter_append]
  simp [hp, List.getLast?_concat]

/-- Witness for C9's amended statement: a buffer ending in a partial entry
returns it and retains it. -/
theorem read_results_spec_witness :
    (getResults [⟨"partial", "liv", []⟩]).1 = [⟨"partial", "liv", []⟩] ∧
    (getResults [⟨"partial", "liv", []⟩]).2 = [⟨"partial", "liv", []⟩] :=
  ⟨(read_results_spec [⟨"partial", "liv", []⟩]).1,
   (read_results_spec [⟨"partial", "liv", []⟩]).2.2 ⟨"partial", "liv", []⟩ rfl rfl⟩

end FSP

namespace FSP

/-! ### C6 — best-effort sample combination -/

/-- C6 counterexample: combining two samples that *both* fail to load does
not fail — the empty combination is exported as a zero-duration clip (the
failure is only caught later, by the silent/corrupt validation of the
combined file). -/
theorem combine_all_failed_does_not_fail :
    prepareAudio [none, none] 500 = .ok 0 := rfl

/-- Evaluating `combineGo` at a positive index: every loaded clip is preceded by one
silence gap. -/
theorem combineGo_pos (gap : Nat) (loads : List (Option Nat)) :
    ∀ i, 1 ≤ i → combineGo gap i loads = loadedSum loads + gap * loadedCount loads := by
  induction loads with
  | nil => intro i _; simp [combineGo, loadedSum, loadedCount]
  | cons hd tl ih =>
    intro i hi
    cases hd with
    | none =>
      rw [show combineGo gap i (none :: tl) = combineGo gap (i + 1) tl from rfl,
        ih (i + 1) (by omega)]
      simp [loadedSum, loadedCount, List.filterMap_cons]
    | some d =>
      rw [show combineGo gap i (some d :: tl) =
          (if 0 < i then gap else 0) + d + combineGo gap (i + 1) tl from rfl,
        ih (i + 1) (by omega), if_pos (by omega)]
      simp [loadedSum, loadedCount, List.filterMap_cons]
      ring

/-- C6 amended: with two or more input samples, `_prepare_audio` never
fails — failed loads are skipped (contributing neither audio nor a gap) and
even an all-failed input yields an (empty) clip rather than an error; the
combined duration is the sum of the loaded clips' durations plus one
silence gap per loaded clip after the first input position; in particular
one valid clip combined with a duplicate of itself lasts twice the clip
plus the gap. -/
theorem combine_best_effort :
    (∀ (loads : List (Option Nat)) (gap : Nat), 2 ≤ loads.length →
        ∃ d, prepareAudio loads gap = .ok d) ∧
    (∀ (hd : Option Nat) (tl : List (Option Nat)) (gap : Nat), 1 ≤ tl.length →
        prepareAudio (hd :: tl) gap =
          .ok (hd.getD 0 + (loadedSum tl + gap * loadedCount tl))) ∧
    (∀ (d gap : Nat), prepareAudio [some d, some d] gap = .ok (d + (d + gap * 1))) := by
  have key : ∀ (hd : Option Nat) (tl : List (Option Nat)) (gap : Nat), 1 ≤ tl.length →
      prepareAudio (hd :: tl) gap =
        .ok (hd.getD 0 + (loadedSum tl + gap * loadedCount tl)) := by
    intro hd tl gap htl
    have htl0 : tl ≠ [] := by
      intro h; subst h; simp at htl
    have hform : prepareAudio (hd :: tl) gap = .ok (combineGo gap 0 (hd :: tl)) := by
      unfold prepareAudio
      cases hd <;> cases tl <;> first | rfl | (exfalso; exact htl0 rfl)
    rw [hform]
    cases hd with
    | none =>
      rw [show combineGo gap 0 (none :: tl) = combineGo gap 1 tl from rfl,
        combineGo_pos gap tl 1 le_rfl]
      simp
    | some d =>
      rw [show combineGo gap 0 (some d :: tl) = 0 + d + combineGo gap 1 tl from rfl,
        combineGo_pos gap tl 1 le_rfl]
      simp
  refine ⟨?_, key, ?_⟩
  · intro loads gap h2
    match loads with
    | hd :: tl =>
      have h1 : 1 ≤ tl.length := by
        simp [List.length_cons] at h2
        omega
      exact ⟨_, key hd tl gap h1⟩
  · intro d gap
    have := key (some d) [some d] gap (by simp)
    simpa [loadedSum, loadedCount] using this

/-- Witness for C6's amended statement: two 10-second (10000 ms) clips with
a 500 ms gap combine to 20500 ms without failing. -/
theorem combine_best_effort_witness :
    prepareAudio [some 10000, some 10000] 500 = .ok (10000 + (10000 + 500 * 1)) ∧
    (∃ d, prepareAudio [none, none] 500 = .ok d) :=
  ⟨combine_best_effort.2.2 10000 500,
   combine_best_effort.1 [none, none] 500 (by decide)⟩

/-! ### C10 — 30-second cap on the prepared reference clip -/

/-- C10: whenever `_prepare_reference_audio` succeeds, the exported
reference clip lasts at most 30 000 ms — `audio[:30000]` truncates anything
longer, after the (duration-preserving) mono/resample/gain-normalize
steps. -/
theorem reference_audio_capped (loads : List (Option Nat)) (d : Nat)
    (h : prepareReferenceAudio loads = .ok d) : d ≤ 30000 := by
  unfold prepareReferenceAudio at h
  rcases loads with _ | ⟨hd, tl⟩
  · simp only at h
    cases h
    exact Nat.min_le_right _ _
  · rcases hd with _ | d0 <;> rcases tl with _ | ⟨hd2, tl2⟩ <;> simp only at h <;>
      first
      | (cases h; exact Nat.min_le_right _ _)
      | cases h

/-- Witness for C10: a single 45-second sample is truncated to 30 seconds. -/
theorem reference_audio_capped_witness :
    prepareReferenceAudio [some 45000] = .ok 30000 ∧ (30000 : Nat) ≤ 30000 :=
  ⟨rfl, reference_audio_capped [some 45000] 30000 rfl⟩

end FSP

namespace FSP

/-! ### C8 — validation check ordering and the quiet flag -/

/-- C8: (1) a readable clip with peak amplitude exactly zero fails with the
silent/corrupt error whatever its duration — the silence check precedes the
duration check; (2) a non-silent clip shorter than 3 s fails with the
too-short error; (3) the verdict (`valid` and `error`) never depends on the
dBFS value, so loudness below −50 dBFS by itself cannot fail validation;
(4) it only sets the non-fatal `is_quiet` flag, which is exactly
`dBFS < −50`. -/
theorem validate_single_checks :
    (∀ (p : AudioProbe) (a : AudioFileInfo), p.fileExists = true → p.fileSize ≠ 0 →
        p.load = .ok a → a.maxAmp = 0 →
        (validateSingle p).error = some .silentCorrupt ∧ (validateSingle p).valid = false) ∧
    (∀ (p : AudioProbe) (a : AudioFileInfo), p.fileExists = true → p.fileSize ≠ 0 →
        p.load = .ok a → a.maxAmp ≠ 0 → a.duration < 3 →
        (validateSingle p).error = some .tooShort ∧ (validateSingle p).valid = false) ∧
    (∀ (ex : Bool) (sz : Nat) (vad : Except String ℚ) (a : AudioFileInfo) (d1 d2 : Int),
        (validateSingle ⟨ex, sz, .ok { a with dBFS := d1 }, vad⟩).valid =
            (validateSingle ⟨ex, sz, .ok { a with dBFS := d2 }, vad⟩).valid ∧
          (validateSingle ⟨ex, sz, .ok { a with dBFS := d1 }, vad⟩).error =
            (validateSingle ⟨ex, sz, .ok { a with dBFS := d2 }, vad⟩).error) ∧
    (∀ (ex : Bool) (sz : Nat) (vad : Except String ℚ) (a : AudioFileInfo),
        ex = true → sz ≠ 0 → a.maxAmp ≠ 0 →
        (validateSingle ⟨ex, sz, .ok a, vad⟩).is_quiet = decide (a.dBFS < -50)) := by
  refine ⟨?_, ?_, ?_, ?_⟩
  · intro p a hex hsz hload hmax
    simp [validateSingle, hex, hsz, hload, hmax]
  · intro p a hex hsz hload hmax hdur
    simp [validateSingle, hex, hsz, hload, hmax, hdur]
  · intro ex sz vad a d1 d2
    unfold validateSingle
    cases ex
    · exact ⟨rfl, rfl⟩
    · by_cases hsz : sz = 0
      · simp [hsz]
      · by_cases hmax : a.maxAmp = 0
        · simp [hsz, hmax]
        · by_cases hdur : a.duration < 3
          · simp [hsz, hmax, hdur]
          · cases vad with
            | error e => simp [hsz, hmax, hdur]
            | ok sd =>
              by_cases hsd : sd < 3 <;> simp [hsz, hmax, hdur, hsd]
  · intro ex sz vad a hex hsz hmax
    subst hex
    by_cases hdur : a.duration < 3
    · simp [validateSingle, hsz, hmax, hdur]
    · cases vad with
      | error e => simp [validateSingle, hsz, hmax, hdur]
      | ok sd =>
        by_cases hsd : sd < 3 <;> simp [validateSingle, hsz, hmax, hdur, hsd]

/-- Witness for C8 at concrete probes: a zero-peak 10-second clip is
rejected as silent/corrupt; a 2-second clip is rejected as too short; a
quiet (−60 dBFS) but otherwise fine clip gets the same verdict as a loud
one and carries the quiet flag. -/
theorem validate_single_checks_witness :
    ((validateSingle ⟨true, 5, .ok ⟨10, 0, -60⟩, .ok 8⟩).error = some .silentCorrupt ∧
      (validateSingle ⟨true, 5, .ok ⟨10, 0, -60⟩, .ok 8⟩).valid = false) ∧
    ((validateSingle ⟨true, 5, .ok ⟨2, 900, -20⟩, .ok 8⟩).error = some .tooShort ∧
      (validateSingle ⟨true, 5, .ok ⟨2, 900, -20⟩, .ok 8⟩).valid = false) ∧
    (validateSingle ⟨true, 5, .ok ⟨10, 900, -60⟩, .ok 8⟩).valid =
      (validateSingle ⟨true, 5, .ok ⟨10, 900, -20⟩, .ok 8⟩).valid ∧
    (validateSingle ⟨true, 5, .ok ⟨10, 900, -60⟩, .ok 8⟩).is_quiet = decide ((-60 : Int) < -50) :=
  ⟨validate_single_checks.1 ⟨true, 5, .ok ⟨10, 0, -60⟩, .ok 8⟩ ⟨10, 0, -60⟩
      rfl (by decide) rfl rfl,
   validate_single_checks.2.1 ⟨true, 5, .ok ⟨2, 900, -20⟩, .ok 8⟩ ⟨2, 900, -20⟩
      rfl (by decide) rfl (by decide) (by norm_num),
   (validate_single_checks.2.2.1 true 5 (.ok 8) ⟨10, 900, -60⟩ (-60) (-20)).1,
   validate_single_checks.2.2.2 true 5 (.ok 8) ⟨10, 900, -60⟩ rfl (by decide) (by decide)⟩

/-! ### C3 — best-effort chunked synthesis -/

/-- Skipping the failed chunks before appending the silence gives the same
audio as mapping failed chunks to the empty contribution. -/
theorem filterMap_silence_eq_map {α : Type} (f : String → Option (List α)) (sil : List α) :
    ∀ l : List String,
      ((l.filterMap f).map (fun a => a ++ sil)).flatten =
        (l.map (fun c =>
          match f c with | some a => a ++ sil | none => ([] : List α))).flatten := by
  intro l
  induction l with
  | nil => rfl
  | cons c t ih =>
    cases h : f c <;> simp [List.filterMap_cons, h, ih]

/-- C3: when the text chunks into n ≥ 2 chunks, `synthesize_long` fails iff
every chunk's synthesis fails; a successful result reports `chunks = n`
(chunks attempted, not succeeded) and its audio is the concatenation in
original order of the successful chunks' audio, each followed by the fixed
inter-chunk silence, failed chunks contributing nothing; when n = 1 it
delegates to single-shot `synthesize` on the full text. -/
theorem synthesize_long_best_effort {α : Type} (maxChars : Nat)
    (synthOne : String → Option (List α)) (sil : List α) (text : String) :
    (2 ≤ (chunkText maxChars text).length →
      ((synthesizeLong maxChars synthOne sil text = none ↔
          ∀ c ∈ chunkText maxChars text, synthOne c = none) ∧
        (∀ r, synthesizeLong maxChars synthOne sil text = some r →
          r.chunks = (chunkText maxChars text).length ∧
          r.audio = ((chunkText maxChars text).map (fun c =>
            match synthOne c with | some a => a ++ sil | none => ([] : List α))).flatten))) ∧
    ((chunkText maxChars text).length = 1 →
      synthesizeLong maxChars synthOne sil text =
        (synthOne text).map (fun a => ⟨a, 1⟩)) := by
  constructor
  · intro h2
    have hne : ¬(chunkText maxChars text).length = 1 := by omega
    constructor
    · simp only [synthesizeLong, if_neg hne]
      constructor
      · intro h
        by_contra hcon
        push_neg at hcon
        obtain ⟨c, hc, hsome⟩ := hcon
        have : ((chunkText maxChars text).filterMap synthOne) ≠ [] := by
          intro hnil
          rw [List.filterMap_eq_nil_iff] at hnil
          exact hsome (hnil c hc)
        simp [List.isEmpty_iff, this] at h
      · intro hall
        have : (chunkText maxChars text).filterMap synthOne = [] :=
          List.filterMap_eq_nil_iff.mpr hall
        simp [this]
    · intro r hr
      simp only [synthesizeLong, if_neg hne] at hr
      split at hr
      · cases hr
      · cases hr
        exact ⟨rfl, filterMap_silence_eq_map synthOne sil _⟩
  · intro h1
    simp [synthesizeLong, h1]

/-- Witness for C3 with maxChars = 5, a two-chunk text and a synthesizer
that succeeds only on the first chunk: the result is not `none`. -/
theorem synthesize_long_best_effort_witness :
    2 ≤ (chunkText 5 "Aa bb cc. Dd ee ff.").length ∧
    (synthesizeLong 5 wSynthOne [0] "Aa bb cc. Dd ee ff." = none ↔
      ∀ c ∈ chunkText 5 "Aa bb cc. Dd ee ff.", wSynthOne c = none) ∧
    (chunkText 5 "Hi.").length = 1 ∧
    synthesizeLong 5 wSynthOne [0] "Hi." = (wSynthOne "Hi.").map (fun a => ⟨a, 1⟩) :=
  ⟨by decide,
   ((synthesize_long_best_effort 5 wSynthOne [0] "Aa bb cc. Dd ee ff.").1 (by decide)).1,
   by decide,
   (synthesize_long_best_effort 5 wSynthOne [0] "Hi.").2 (by decide)⟩

end FSP

namespace FSP

/-! ### Whitespace, strip and `noMatch` infrastructure (for C5) -/

theorem isWs_of_punct {c : Char} (h : isPunctC c = true) : isWsC c = false := by
  simp only [isPunctC, Bool.or_eq_true, beq_iff_eq] at h
  rcases h with (h | h) | h <;> subst h <;> decide

theorem mem_of_getLast_opt {l : List Char} {a : Char} (h : l.getLast? = some a) : a ∈ l := by
  obtain ⟨hne, heq⟩ := List.mem_getLast?_eq_getLast h
  rw [heq]
  exact List.getLast_mem hne

theorem dropWhile_eq_self_of_head {l : List Char}
    (h : ∀ c ∈ l.head?, isWsC c = false) : l.dropWhile isWsC = l := by
  cases l with
  | nil => rfl
  | cons a t =>
    have ha : isWsC a = false := h a rfl
    simp [List.dropWhile_cons, ha]

theorem stripChars_eq_self {l : List Char} (h : noWsEdge l) : stripChars l = l := by
  obtain ⟨h1, h2⟩ := h
  unfold stripChars
  rw [dropWhile_eq_self_of_head h1,
    dropWhile_eq_self_of_head (by simpa [List.head?_reverse] using h2),
    List.reverse_reverse]

theorem head_dropWhile_ws (l : List Char) :
    ∀ c ∈ (l.dropWhile isWsC).head?, isWsC c = false := by
  intro c hc
  have hmatch := List.head?_dropWhile_not isWsC l
  rw [Option.mem_def.mp hc] at hmatch
  exact hmatch

theorem getLast_dropWhile_ws {l : List Char} (h : l.dropWhile isWsC ≠ []) :
    (l.dropWhile isWsC).getLast? = l.getLast? := by
  obtain ⟨t, ht⟩ := List.dropWhile_suffix (p := isWsC) (l := l)
  conv_rhs => rw [← ht]
  rw [List.getLast?_append_of_ne_nil t h]

theorem noWsEdge_stripChars (l : List Char) : noWsEdge (stripChars l) := by
  constructor
  · intro c hc
    unfold stripChars at hc
    rw [List.head?_reverse] at hc
    by_cases hnil : (l.dropWhile isWsC).reverse.dropWhile isWsC = []
    · rw [hnil] at hc; cases hc
    · rw [getLast_dropWhile_ws hnil, List.getLast?_reverse] at hc
      exact head_dropWhile_ws l c hc
  · intro c hc
    unfold stripChars at hc
    rw [List.getLast?_reverse] at hc
    exact head_dropWhile_ws _ c hc

theorem stripChars_idem (l : List Char) : stripChars (stripChars l) = stripChars l :=
  stripChars_eq_self (noWsEdge_stripChars l)

theorem sentOk_noWsEdge {s : List Char} (h : SentOk s) : noWsEdge s := by
  rw [← h.2.1]
  exact noWsEdge_stripChars s

theorem noMatch_cons2 (c d : Char) (t : List Char) :
    noMatch (c :: d :: t) = (!(isPunctC c && isWsC d) && noMatch (d :: t)) := rfl

theorem noMatch_cons {c : Char} {l : List Char} (h : noMatch (c :: l) = true) :
    noMatch l = true := by
  cases l with
  | nil => rfl
  | cons d t =>
    rw [noMatch_cons2, Bool.and_eq_true] at h
    exact h.2

theorem noMatch_append_right {a b : List Char} (h : noMatch (a ++ b) = true) :
    noMatch b = true := by
  induction a with
  | nil => exact h
  | cons c t ih => exact ih (noMatch_cons h)

theorem noMatch_append_left {a b : List Char} (h : noMatch (a ++ b) = true) :
    noMatch a = true := by
  induction a with
  | nil => rfl
  | cons c t ih =>
    cases t with
    | nil => rfl
    | cons d t2 =>
      rw [List.cons_append, List.cons_append, noMatch_cons2, Bool.and_eq_true] at h
      rw [noMatch_cons2, Bool.and_eq_true]
      exact ⟨h.1, ih (by rw [List.cons_append]; exact h.2)⟩

theorem stripChars_middle (l : List Char) : ∃ pre post, l = pre ++ stripChars l ++ post := by
  obtain ⟨t1, ht1⟩ := List.dropWhile_suffix (p := isWsC) (l := l)
  obtain ⟨t2, ht2⟩ := List.dropWhile_suffix (p := isWsC) (l := (l.dropWhile isWsC).reverse)
  refine ⟨t1, t2.reverse, ?_⟩
  have hm : stripChars l ++ t2.reverse = l.dropWhile isWsC := by
    have hrev := congrArg List.reverse ht2
    rw [List.reverse_append, List.reverse_reverse] at hrev
    exact hrev
  rw [List.append_assoc, hm, ht1]

theorem noMatch_stripChars {l : List Char} (h : noMatch l = true) :
    noMatch (stripChars l) = true := by
  obtain ⟨pre, post, hl⟩ := stripChars_middle l
  rw [hl] at h
  exact noMatch_append_right (noMatch_append_left h)

theorem endsPunct_stripChars {p : List Char} (hp : endsPunctB p = true) :
    endsPunctB (stripChars p) = true := by
  unfold endsPunctB at hp
  cases hl : p.getLast? with
  | none => rw [hl] at hp; cases hp
  | some c =>
    rw [hl] at hp
    have hcw : isWsC c = false := isWs_of_punct hp
    have h1 : p.dropWhile isWsC ≠ [] := by
      intro hd
      rw [List.dropWhile_eq_nil_iff] at hd
      rw [hd c (mem_of_getLast_opt hl)] at hcw
      cases hcw
    have h2 : (p.dropWhile isWsC).getLast? = some c := by
      rw [getLast_dropWhile_ws h1, hl]
    have h3 : ((p.dropWhile isWsC).reverse).dropWhile isWsC = (p.dropWhile isWsC).reverse := by
      apply dropWhile_eq_self_of_head
      intro d hd
      rw [List.head?_reverse, h2] at hd
      have hdc : d = c := (Option.some.inj (Option.mem_def.mp hd)).symm
      rw [hdc]
      exact hcw
    unfold stripChars endsPunctB
    rw [h3, List.getLast?_reverse, List.head?_reverse, h2]
    exact hp

end FSP

namespace FSP

/-! ### Splitter lemmas (C5) -/

theorem splitGo_cons (c : Char) (rest cur : List Char) (inSep : Bool) :
    splitGo (c :: rest) cur inSep =
      if inSep && isWsC c then splitGo rest cur true
      else if isWsC c && headPunct cur then cur.reverse :: splitGo rest [] true
      else splitGo rest (c :: cur) false := rfl

theorem nm_snoc : ∀ (l : List Char) {c : Char}, noMatch l = true →
    (∀ p ∈ l.getLast?, (isPunctC p && isWsC c) = false) → noMatch (l ++ [c]) = true := by
  intro l
  induction l with
  | nil => intro c _ _; rfl
  | cons a t ih =>
    intro c h hp
    cases t with
    | nil =>
      have hpa := hp a rfl
      rw [show ([a] ++ [c] : List Char) = [a, c] from rfl, noMatch_cons2, hpa]
      rfl
    | cons b t2 =>
      rw [noMatch_cons2, Bool.and_eq_true] at h
      rw [show (a :: b :: t2) ++ [c] = a :: b :: (t2 ++ [c]) from rfl, noMatch_cons2,
        Bool.and_eq_true]
      refine ⟨h.1, ?_⟩
      have hih := ih h.2 (fun p hmem => hp p (by rwa [List.getLast?_cons_cons]))
      rwa [show (b :: t2) ++ [c] = b :: (t2 ++ [c]) from rfl] at hih

theorem nm_pair : ∀ (l : List Char) {c : Char} (r : List Char),
    noMatch (l ++ c :: r) = true → ∀ p ∈ l.getLast?, (isPunctC p && isWsC c) = false := by
  intro l
  induction l with
  | nil => intro c r _ p hp; cases hp
  | cons a t ih =>
    intro c r h p hp
    cases t with
    | nil =>
      have hpa : p = a := (Option.some.inj (Option.mem_def.mp hp)).symm
      subst hpa
      rw [show ([p] ++ c :: r : List Char) = p :: c :: r from rfl, noMatch_cons2,
        Bool.and_eq_true] at h
      have h1 := h.1
      cases hx : (isPunctC p && isWsC c) with
      | false => rfl
      | true => rw [hx] at h1; cases h1
    | cons b t2 =>
      rw [List.getLast?_cons_cons] at hp
      rw [List.cons_append] at h
      exact ih r (noMatch_cons h) p hp

theorem splitGo_ne_nil : ∀ (cs cur : List Char) (inSep : Bool), splitGo cs cur inSep ≠ [] := by
  intro cs
  induction cs with
  | nil => intro cur inSep h; cases h
  | cons c rest ih =>
    intro cur inSep
    rw [splitGo_cons]
    split_ifs with h1 h2
    · exact ih cur true
    · intro h; cases h
    · exact ih (c :: cur) false

theorem piecesOk_splitGo : ∀ (cs cur : List Char) (inSep : Bool),
    noMatch cur.reverse = true → piecesOk (splitGo cs cur inSep) := by
  intro cs
  induction cs with
  | nil =>
    intro cur inSep h
    exact ⟨h, Or.inl rfl, trivial⟩
  | cons c rest ih =>
    intro cur inSep h
    rw [splitGo_cons]
    split_ifs with h1 h2
    · exact ih cur true h
    · rw [Bool.and_eq_true] at h2
      refine ⟨h, Or.inr ?_, ih [] true rfl⟩
      cases cur with
      | nil => cases h2.2
      | cons p t =>
        unfold endsPunctB
        rw [List.getLast?_reverse]
        exact h2.2
    · apply ih (c :: cur) false
      rw [List.reverse_cons]
      apply nm_snoc cur.reverse h
      intro p hp
      rw [List.getLast?_reverse] at hp
      cases cur with
      | nil => cases hp
      | cons p0 t =>
        have hpp : p = p0 := (Option.some.inj (Option.mem_def.mp hp)).symm
        subst hpp
        cases hx : (isPunctC p && isWsC c) with
        | false => rfl
        | true =>
          exfalso
          rw [Bool.and_eq_true] at hx
          exact h2 (by rw [Bool.and_eq_true]; exact ⟨hx.2, hx.1⟩)

theorem splitGo_true_of_head {t : List Char} (cur : List Char)
    (h : ∀ c ∈ t.head?, isWsC c = false) : splitGo t cur true = splitGo t cur false := by
  cases t with
  | nil => rfl
  | cons c rest =>
    have hc : isWsC c = false := h c rfl
    rw [splitGo_cons, splitGo_cons]
    simp [hc]

theorem splitGo_sep : ∀ (s cur : List Char) {w : Char} (t : List Char),
    noMatch (cur.reverse ++ s) = true → endsPunctB (cur.reverse ++ s) = true →
    isWsC w = true →
    splitGo (s ++ w :: t) cur false = (cur.reverse ++ s) :: splitGo t [] true := by
  intro s
  induction s with
  | nil =>
    intro cur w t hnm hep hw
    rw [List.append_nil] at hep
    have hcond : (isWsC w && headPunct cur) = true := by
      cases cur with
      | nil => exact absurd hep (by decide)
      | cons p t0 =>
        rw [Bool.and_eq_true]
        refine ⟨hw, ?_⟩
        unfold endsPunctB at hep
        rw [List.getLast?_reverse] at hep
        exact hep
    rw [show (([] : List Char) ++ w :: t) = w :: t from rfl, splitGo_cons,
      if_neg (by simp), if_pos hcond, List.append_nil]
  | cons a s' ih =>
    intro cur w t hnm hep hw
    have hrw : (a :: cur).reverse ++ s' = cur.reverse ++ a :: s' := by
      rw [List.reverse_cons, List.append_assoc]
      rfl
    have hb : (isWsC a && headPunct cur) = false := by
      cases cur with
      | nil => simp [headPunct]
      | cons p t0 =>
        have hpair := nm_pair (p :: t0).reverse s' hnm p (by rw [List.getLast?_reverse]; rfl)
        show (isWsC a && isPunctC p) = false
        rw [Bool.and_comm]
        exact hpair
    rw [List.cons_append, splitGo_cons, if_neg (by simp), if_neg (by simp [hb])]
    rw [ih (a :: cur) t (by rw [hrw]; exact hnm) (by rw [hrw]; exact hep) hw, hrw]

theorem splitGo_noSplit : ∀ (s cur : List Char),
    noMatch (cur.reverse ++ s) = true → splitGo s cur false = [cur.reverse ++ s] := by
  intro s
  induction s with
  | nil =>
    intro cur h
    rw [List.append_nil]
    rfl
  | cons a s' ih =>
    intro cur hnm
    have hrw : (a :: cur).reverse ++ s' = cur.reverse ++ a :: s' := by
      rw [List.reverse_cons, List.append_assoc]
      rfl
    have hb : (isWsC a && headPunct cur) = false := by
      cases cur with
      | nil => simp [headPunct]
      | cons p t0 =>
        have hpair := nm_pair (p :: t0).reverse s' hnm p (by rw [List.getLast?_reverse]; rfl)
        show (isWsC a && isPunctC p) = false
        rw [Bool.and_comm]
        exact hpair
    rw [splitGo_cons, if_neg (by simp), if_neg (by simp [hb])]
    rw [ih (a :: cur) (by rw [hrw]; exact hnm), hrw]

end FSP

namespace FSP

/-! ### Sentence sequences: well-formedness and reassembly (C5) -/

theorem head?_append_left {a : List Char} (b : List Char) (h : a ≠ []) :
    (a ++ b).head? = a.head? := by
  cases a with
  | nil => exact absurd rfl h
  | cons x t => rfl

theorem sentsOk_of_piecesOk : ∀ ps : List (List Char), piecesOk ps →
    sentsOk ((ps.map stripChars).filter (fun s => !s.isEmpty)) := by
  intro ps
  induction ps with
  | nil => intro _; trivial
  | cons p rest ih =>
    intro h
    obtain ⟨hnm, hor, hrest⟩ := h
    rw [List.map_cons, List.filter_cons]
    by_cases hemp : (stripChars p).isEmpty
    · rw [if_neg (by simp [hemp])]
      exact ih hrest
    · rw [if_pos (by simp [Bool.not_eq_true] at hemp; simp [hemp])]
      refine ⟨⟨?_, stripChars_idem p, noMatch_stripChars hnm⟩, ?_, ih hrest⟩
      · intro hc
        rw [hc] at hemp
        exact hemp rfl
      · by_cases hfr : ((rest.map stripChars).filter (fun s => !s.isEmpty)) = []
        · exact Or.inl hfr
        · refine Or.inr (endsPunct_stripChars (hor.resolve_left ?_))
          intro hr
          subst hr
          simp at hfr

theorem sentsOk_splitSentencesL (cs : List Char) : sentsOk (splitSentencesL cs) := by
  unfold splitSentencesL splitRaw
  exact sentsOk_of_piecesOk _ (piecesOk_splitGo _ [] false rfl)

theorem sentsOk_append_left : ∀ {a : List (List Char)} (b : List (List Char)),
    sentsOk (a ++ b) → sentsOk a := by
  intro a
  induction a with
  | nil => intro b _; trivial
  | cons x t ih =>
    intro b h
    obtain ⟨hx, hor, hrest⟩ := h
    refine ⟨hx, ?_, ih b hrest⟩
    cases t with
    | nil => exact Or.inl rfl
    | cons y t2 => exact Or.inr (hor.resolve_left (by simp))

theorem sentsOk_append_right : ∀ (a : List (List Char)) {b : List (List Char)},
    sentsOk (a ++ b) → sentsOk b := by
  intro a
  induction a with
  | nil => intro b h; exact h
  | cons x t ih => intro b h; exact ih h.2.2

theorem sentsOk_mem : ∀ (ss : List (List Char)), sentsOk ss → ∀ s ∈ ss, SentOk s := by
  intro ss
  induction ss with
  | nil => intro _ s hs; cases hs
  | cons x t ih =>
    intro h s hs
    rcases List.mem_cons.mp hs with h1 | h1
    · subst h1; exact h.1
    · exact ih h.2.2 s h1

theorem joinSp_cons (s : List Char) {rest : List (List Char)} (h : rest ≠ []) :
    joinSp (s :: rest) = s ++ ' ' :: joinSp rest := by
  cases rest with
  | nil => exact absurd rfl h
  | cons y t => rfl

theorem joinSp_ne_nil : ∀ {g : List (List Char)}, (∀ s ∈ g, SentOk s) → g ≠ [] →
    joinSp g ≠ [] := by
  intro g hall hne
  cases g with
  | nil => exact absurd rfl hne
  | cons s t =>
    cases t with
    | nil => exact (hall s (by simp)).1
    | cons y t2 =>
      rw [joinSp_cons s (by simp)]
      intro hc
      rcases s with _ | ⟨a, b⟩
      · exact (hall [] (by simp)).1 rfl
      · simp at hc

theorem joinSp_append : ∀ {a : List (List Char)} (b : List (List Char)), a ≠ [] → b ≠ [] →
    joinSp (a ++ b) = joinSp a ++ ' ' :: joinSp b := by
  intro a
  induction a with
  | nil => intro b h _; exact absurd rfl h
  | cons x t ih =>
    intro b _ hb
    cases t with
    | nil => rw [List.cons_append, List.nil_append, joinSp_cons x hb]; rfl
    | cons y t2 =>
      rw [List.cons_append, joinSp_cons x (by simp), joinSp_cons x (show y :: t2 ≠ [] by simp),
        ih b (by simp) hb]
      simp

theorem joinSp_snoc {g : List (List Char)} (h : g ≠ []) (s : List Char) :
    joinSp (g ++ [s]) = joinSp g ++ ' ' :: s :=
  joinSp_append [s] h (by simp)

theorem noWsEdge_joinSp : ∀ (g : List (List Char)), (∀ s ∈ g, SentOk s) →
    noWsEdge (joinSp g) := by
  intro g
  induction g with
  | nil =>
    intro _
    refine ⟨?_, ?_⟩ <;> intro c hc <;> cases hc
  | cons s t ih =>
    intro hall
    have hs : SentOk s := hall s (by simp)
    have hedge : noWsEdge s := sentOk_noWsEdge hs
    cases t with
    | nil => exact hedge
    | cons y t2 =>
      have hallt : ∀ x ∈ (y :: t2), SentOk x := fun x hx => hall x (by simp [hx])
      have iht := ih hallt
      rw [joinSp_cons s (by simp)]
      constructor
      · intro c hc
        rw [head?_append_left _ hs.1] at hc
        exact hedge.1 c hc
      · intro c hc
        have hjne : joinSp (y :: t2) ≠ [] := joinSp_ne_nil hallt (by simp)
        rw [List.getLast?_append_of_ne_nil s (by simp),
          show (' ' :: joinSp (y :: t2)) = [' '] ++ joinSp (y :: t2) from rfl,
          List.getLast?_append_of_ne_nil [' '] hjne] at hc
        exact iht.2 c hc

theorem stripChars_joinSp {g : List (List Char)} (hall : ∀ s ∈ g, SentOk s) :
    stripChars (joinSp g) = joinSp g :=
  stripChars_eq_self (noWsEdge_joinSp g hall)

theorem splitRaw_joinSp : ∀ (ss : List (List Char)), sentsOk ss → ss ≠ [] →
    splitRaw (joinSp ss) = ss := by
  intro ss
  induction ss with
  | nil => intro _ h; exact absurd rfl h
  | cons s t ih =>
    intro hok hne
    obtain ⟨hs, hor, ht⟩ := hok
    cases t with
    | nil => exact splitGo_noSplit s [] hs.2.2
    | cons y t2 =>
      have hallt : ∀ x ∈ (y :: t2), SentOk x := sentsOk_mem _ ht
      have hepS : endsPunctB s = true := hor.resolve_left (by simp)
      have hhead : ∀ c ∈ (joinSp (y :: t2)).head?, isWsC c = false :=
        (noWsEdge_joinSp _ hallt).1
      have hsep := splitGo_sep s [] (w := ' ') (joinSp (y :: t2)) hs.2.2 hepS (by decide)
      unfold splitRaw
      rw [joinSp_cons s (by simp), hsep, splitGo_true_of_head [] hhead]
      rw [show splitGo (joinSp (y :: t2)) [] false = splitRaw (joinSp (y :: t2)) from rfl,
        ih ht (by simp)]
      rfl

theorem splitSentencesL_joinSp : ∀ {ss : List (List Char)}, sentsOk ss →
    splitSentencesL (joinSp ss) = ss := by
  intro ss h
  cases ss with
  | nil => rfl
  | cons s t =>
    have hall := sentsOk_mem _ h
    unfold splitSentencesL
    rw [stripChars_joinSp hall, splitRaw_joinSp _ h (by simp)]
    have hmap : (s :: t).map stripChars = s :: t := by
      conv_rhs => rw [← List.map_id (s :: t)]
      exact List.map_congr_left (fun x hx => (hall x hx).2.1)
    rw [hmap]
    apply List.filter_eq_self.mpr
    intro a ha
    simp [(hall a ha).1]

/-- Re-splitting a single well-formed sentence gives that sentence back. -/
theorem splitSentencesL_single {s : List Char} (h : SentOk s) :
    splitSentencesL s = [s] :=
  @splitSentencesL_joinSp [s] ⟨h, Or.inl rfl, trivial⟩

end FSP

namespace FSP

/-! ### Greedy chunking: grouping invariant and the C5 claims -/

theorem chunkGo_nil (maxChars : Nat) (cur : List Char) :
    chunkGo maxChars [] cur = if cur.isEmpty then [] else [stripChars cur] := rfl

theorem chunkGo_cons (maxChars : Nat) (s : List Char) (rest : List (List Char)) (cur : List Char) :
    chunkGo maxChars (s :: rest) cur =
      if maxChars < cur.length + s.length + 1 ∧ ¬cur.isEmpty then
        stripChars cur :: chunkGo maxChars rest s
      else chunkGo maxChars rest (if cur.isEmpty then s else stripChars (cur ++ ' ' :: s)) := rfl

/-- The greedy fold packs the pending group `g` and the remaining sentences
into consecutive non-empty groups, each chunk being the space-join of its
group, and each group either a single sentence or fitting the budget. -/
theorem chunkGo_grouping (maxChars : Nat) : ∀ (ss g : List (List Char)),
    (∀ s ∈ g ++ ss, SentOk s) →
    (g = [] ∨ g.length = 1 ∨ (joinSp g).length ≤ maxChars) →
    ∃ groups : List (List (List Char)),
      chunkGo maxChars ss (joinSp g) = groups.map joinSp ∧
      groups.flatten = g ++ ss ∧
      (∀ gr ∈ groups, gr ≠ []) ∧
      (∀ gr ∈ groups, gr.length = 1 ∨ (joinSp gr).length ≤ maxChars) := by
  intro ss
  induction ss with
  | nil =>
    intro g hall hside
    by_cases hg : g = []
    · subst hg
      refine ⟨[], rfl, rfl, ?_, ?_⟩ <;> (intro gr hgr; cases hgr)
    · have hallg : ∀ s ∈ g, SentOk s := by
        intro s hs; exact hall s (by simpa using hs)
      have hjne : joinSp g ≠ [] := joinSp_ne_nil hallg hg
      refine ⟨[g], ?_, by simp, ?_, ?_⟩
      · rw [chunkGo_nil, if_neg (by simp [List.isEmpty_iff, hjne]),
          stripChars_joinSp hallg]
        rfl
      · intro gr hgr
        rcases List.mem_cons.mp hgr with h1 | h1
        · subst h1; exact hg
        · cases h1
      · intro gr hgr
        rcases List.mem_cons.mp hgr with h1 | h1
        · subst h1
          rcases hside with hc | hc
          · exact absurd hc hg
          · exact hc
        · cases h1
  | cons s rest ih =>
    intro g hall hside
    rw [chunkGo_cons]
    have hsok : SentOk s := hall s (by simp)
    have hallrest : ∀ x ∈ ([s] ++ rest), SentOk x := by
      intro x hx
      exact hall x (List.mem_append.mpr (Or.inr (by simpa using hx)))
    by_cases hflush : maxChars < (joinSp g).length + s.length + 1 ∧ ¬(joinSp g).isEmpty
    · rw [if_pos hflush]
      have hg : g ≠ [] := by
        intro hgeq
        subst hgeq
        exact hflush.2 rfl
      have hallg : ∀ x ∈ g, SentOk x := by
        intro x hx; exact hall x (List.mem_append.mpr (Or.inl hx))
      obtain ⟨groups, heq, hflat, hne, hlen⟩ := ih [s] hallrest (Or.inr (Or.inl rfl))
      refine ⟨g :: groups, ?_, ?_, ?_, ?_⟩
      · rw [List.map_cons, ← heq, stripChars_joinSp hallg]
        rfl
      · rw [List.flatten_cons, hflat]
        rfl
      · intro gr hgr
        rcases List.mem_cons.mp hgr with h1 | h1
        · subst h1; exact hg
        · exact hne gr h1
      · intro gr hgr
        rcases List.mem_cons.mp hgr with h1 | h1
        · subst h1
          rcases hside with hc | hc
          · exact absurd hc hg
          · exact hc
        · exact hlen gr h1
    · rw [if_neg hflush]
      by_cases hge : g = []
      · subst hge
        have hempty : (joinSp ([] : List (List Char))).isEmpty = true := rfl
        rw [if_pos hempty]
        obtain ⟨groups, heq, hflat, hne, hlen⟩ := ih [s] hallrest (Or.inr (Or.inl rfl))
        exact ⟨groups, heq, by rw [hflat]; rfl, hne, hlen⟩
      · have hallg : ∀ x ∈ g, SentOk x := by
          intro x hx; exact hall x (List.mem_append.mpr (Or.inl hx))
        have hjne : joinSp g ≠ [] := joinSp_ne_nil hallg hge
        rw [if_neg (by simp [List.isEmpty_iff, hjne])]
        have hstrip : stripChars (joinSp g ++ ' ' :: s) = joinSp g ++ ' ' :: s := by
          apply stripChars_eq_self
          constructor
          · intro c hc
            rw [head?_append_left _ hjne] at hc
            exact (noWsEdge_joinSp g hallg).1 c hc
          · intro c hc
            rw [List.getLast?_append_of_ne_nil (joinSp g) (by simp),
              show (' ' :: s) = [' '] ++ s from rfl,
              List.getLast?_append_of_ne_nil [' '] hsok.1] at hc
            exact (sentOk_noWsEdge hsok).2 c hc
        have hjoin : joinSp g ++ ' ' :: s = joinSp (g ++ [s]) := (joinSp_snoc hge s).symm
        rw [hstrip, hjoin]
        have hlen2 : (joinSp (g ++ [s])).length ≤ maxChars := by
          rw [← hjoin]
          have h1 : ¬ maxChars < (joinSp g).length + s.length + 1 := by
            intro hlt
            exact hflush ⟨hlt, by simp [List.isEmpty_iff, hjne]⟩
          simp only [List.length_append, List.length_cons]
          omega
        have hallg2 : ∀ x ∈ (g ++ [s]) ++ rest, SentOk x := by
          intro x hx
          apply hall x
          rw [List.append_assoc] at hx
          exact hx
        obtain ⟨groups, heq, hflat, hne, hlen⟩ := ih (g ++ [s]) hallg2 (Or.inr (Or.inr hlen2))
        refine ⟨groups, heq, ?_, hne, hlen⟩
        rw [hflat, List.append_assoc]
        rfl

theorem chunkTextL_no_sentences (maxChars : Nat) (cs : List Char)
    (h : splitSentencesL cs = []) : chunkTextL maxChars cs = [cs] := by
  show (if (chunkGo maxChars (splitSentencesL cs) []).isEmpty then [cs]
    else chunkGo maxChars (splitSentencesL cs) []) = [cs]
  rw [h]
  rfl

theorem chunkTextL_grouping (maxChars : Nat) (cs : List Char)
    (h : splitSentencesL cs ≠ []) :
    ∃ groups : List (List (List Char)),
      chunkTextL maxChars cs = groups.map joinSp ∧
      groups.flatten = splitSentencesL cs ∧
      (∀ gr ∈ groups, gr ≠ []) ∧
      (∀ gr ∈ groups, gr.length = 1 ∨ (joinSp gr).length ≤ maxChars) := by
  obtain ⟨groups, heq, hflat, hne, hlen⟩ := chunkGo_grouping maxChars (splitSentencesL cs) []
    (by simpa using sentsOk_mem _ (sentsOk_splitSentencesL cs)) (Or.inl rfl)
  have hgne : groups ≠ [] := by
    intro hg
    subst hg
    exact h (by simpa using hflat.symm)
  refine ⟨groups, ?_, by simpa using hflat, hne, hlen⟩
  show (if (chunkGo maxChars (splitSentencesL cs) []).isEmpty then [cs]
    else chunkGo maxChars (splitSentencesL cs) []) = groups.map joinSp
  have heq0 : chunkGo maxChars (splitSentencesL cs) [] = groups.map joinSp := heq
  rw [heq0, if_neg (by simp [List.isEmpty_iff, hgne])]

theorem sentsOk_of_flatten : ∀ (groups : List (List (List Char))) (ss : List (List Char)),
    groups.flatten = ss → sentsOk ss → ∀ g ∈ groups, sentsOk g := by
  intro groups
  induction groups with
  | nil => intro ss _ _ g hg; cases hg
  | cons g0 t ih =>
    intro ss hflat hok g hg
    subst hflat
    rw [List.flatten_cons] at hok
    rcases List.mem_cons.mp hg with h1 | h1
    · subst h1
      exact sentsOk_append_left _ hok
    · exact ih t.flatten rfl (sentsOk_append_right g0 hok) g h1

theorem joinSp_map_joinSp : ∀ (groups : List (List (List Char))),
    (∀ g ∈ groups, g ≠ []) →
    joinSp (groups.map joinSp) = joinSp groups.flatten := by
  intro groups
  induction groups with
  | nil => intro _; rfl
  | cons g t ih =>
    intro hne
    cases t with
    | nil =>
      show joinSp g = joinSp ([g].flatten)
      rw [show ([g] : List (List (List Char))).flatten = g ++ [] from rfl, List.append_nil]
    | cons g2 t2 =>
      have hg : g ≠ [] := hne g (by simp)
      have hg2 : g2 ≠ [] := hne g2 (by simp)
      have hfl : (g2 :: t2).flatten ≠ [] := by
        rw [List.flatten_cons]
        intro hcc
        exact hg2 (List.append_eq_nil.mp hcc).1
      rw [List.map_cons, joinSp_cons _ (by simp),
        ih (fun x hx => hne x (by simp [hx])),
        show (g :: g2 :: t2).flatten = g ++ (g2 :: t2).flatten from rfl,
        joinSp_append _ hg hfl]

end FSP

namespace FSP

/-- C5 counterexample: for a whitespace-only text longer than the budget
(here five spaces with maxChars = 3), the `return chunks if chunks else
[text]` fallback returns the raw text as a single chunk that exceeds
maxChars and is not a single sentence (the text has no sentences at all). -/
theorem chunk_oversized_whitespace_chunk :
    ¬(∀ c ∈ chunkTextL 3 (List.replicate 5 ' '), c.length ≤ 3 ∨ splitSentencesL c = [c]) := by
  decide

/-- C5 amended: chunking never splits a sentence — the chunks' sentence
sequences concatenate to exactly the text's sentence sequence, and
re-splitting the space-join of all chunks reproduces it as well; when the
text has no sentences the single returned chunk is the raw text verbatim
(which may exceed maxChars); otherwise every chunk either fits in maxChars
or is a single (oversized) sentence. -/
theorem chunk_text_sentence_safe (maxChars : Nat) (cs : List Char) :
    ((chunkTextL maxChars cs).map splitSentencesL).flatten = splitSentencesL cs ∧
    splitSentencesL (joinSp (chunkTextL maxChars cs)) = splitSentencesL cs ∧
    (splitSentencesL cs = [] → chunkTextL maxChars cs = [cs]) ∧
    (splitSentencesL cs ≠ [] →
      ∀ c ∈ chunkTextL maxChars cs, c.length ≤ maxChars ∨ splitSentencesL c = [c]) := by
  by_cases h : splitSentencesL cs = []
  · have hfb : chunkTextL maxChars cs = [cs] := chunkTextL_no_sentences maxChars cs h
    refine ⟨?_, ?_, fun _ => hfb, fun hne => absurd h hne⟩
    · rw [hfb]
      simp [h]
    · rw [hfb]
      rfl
  · obtain ⟨groups, heq, hflat, hne, hlen⟩ := chunkTextL_grouping maxChars cs h
    have hok := sentsOk_splitSentencesL cs
    have hgsent : ∀ g ∈ groups, sentsOk g := sentsOk_of_flatten groups _ hflat hok
    have hmapeq : (groups.map joinSp).map splitSentencesL = groups := by
      rw [List.map_map]
      conv_rhs => rw [← List.map_id groups]
      exact List.map_congr_left (fun g hg => splitSentencesL_joinSp (hgsent g hg))
    refine ⟨?_, ?_, fun hc => absurd hc h, fun _ => ?_⟩
    · rw [heq, hmapeq, hflat]
    · rw [heq, joinSp_map_joinSp groups hne, hflat, splitSentencesL_joinSp hok]
    · intro c hc
      rw [heq] at hc
      obtain ⟨g, hg, rfl⟩ := List.mem_map.mp hc
      rcases hlen g hg with h1 | h1
      · obtain ⟨s0, rfl⟩ := List.length_eq_one.mp h1
        have hsok : SentOk s0 := sentsOk_mem _ (hgsent _ hg) s0 (by simp)
        exact Or.inr (splitSentencesL_single hsok)
      · exact Or.inl h1

/-- Witness for C5's amended statement: a two-sentence text with budget 5
(both conjuncts with hypotheses applied), and the whitespace fallback. -/
theorem chunk_text_sentence_safe_witness :
    splitSentencesL ("Hi. Yo.".toList) ≠ [] ∧
    (∀ c ∈ chunkTextL 5 ("Hi. Yo.".toList), c.length ≤ 5 ∨ splitSentencesL c = [c]) ∧
    splitSentencesL (List.replicate 5 ' ') = [] ∧
    chunkTextL 3 (List.replicate 5 ' ') = [List.replicate 5 ' '] :=
  ⟨by decide,
   (chunk_text_sentence_safe 5 ("Hi. Yo.".toList)).2.2.2 (by decide),
   by decide,
   (chunk_text_sentence_safe 3 (List.replicate 5 ' ')).2.2.1 (by decide)⟩

end FSP
